import Mathlib

/-!
Shallow embedding of the potato-shell command core (`src/main.rs`): the
segment parser, the builtin classifier and the pipeline executor
(`handel_command`), with the OS interactions (file opens, process spawns,
directory changes, waits) abstracted as boolean oracles.  Rust string
values are modelled as lists of characters; `Option::unwrap` on `None`
is modelled as an explicit `panicked` outcome.
-/

namespace PotatoShell

/-- Rust `&str` / `String` values, modelled as lists of characters. -/
abbrev Str := List Char

/-- Whether `sep` is an initial run of `l` (the matching step of Rust
substring search). -/
def isPrefixL : Str → Str → Bool
  | [], _ => true
  | _ :: _, [] => false
  | a :: sa, b :: sb => a == b && isPrefixL sa sb

/-- Rust `str::contains`: `sep` occurs somewhere in `l` as a contiguous
substring. -/
def containsSub (sep : Str) : Str → Bool
  | [] => isPrefixL sep []
  | c :: rest => isPrefixL sep (c :: rest) || containsSub sep rest

/-- Rust `str::split(sep)` with leftmost-first, non-overlapping matches.
`skip` counts separator characters still to be consumed after a match;
`acc` holds the current piece reversed. -/
def splitOnAux (sep : Str) : Nat → Str → Str → List Str
  | _, acc, [] => [acc.reverse]
  | skp + 1, acc, _ :: rest => splitOnAux sep skp acc rest
  | 0, acc, c :: rest =>
    if isPrefixL sep (c :: rest) then
      acc.reverse :: splitOnAux sep (sep.length - 1) [] rest
    else
      splitOnAux sep 0 (c :: acc) rest

/-- Rust `str::split(sep)`. -/
def splitOnL (sep l : Str) : List Str := splitOnAux sep 0 [] l

/-- Rust `str::split_whitespace`: maximal runs of non-whitespace
characters, no empty tokens. -/
def splitWsAux : Str → Str → List Str
  | acc, [] => if acc.isEmpty then [] else [acc.reverse]
  | acc, c :: rest =>
    if c.isWhitespace then
      if acc.isEmpty then splitWsAux [] rest
      else acc.reverse :: splitWsAux [] rest
    else
      splitWsAux (c :: acc) rest

/-- Rust `str::split_whitespace`. -/
def splitWs (l : Str) : List Str := splitWsAux [] l

/-- Rust `str::trim`: drop whitespace from both ends. -/
def trimL (l : Str) : Str :=
  ((l.dropWhile Char.isWhitespace).reverse.dropWhile Char.isWhitespace).reverse

/-- The pipeline separator: the literal three-character token `" | "`. -/
def pipeSep : Str := " | ".toList

/-- The read-redirection operator `<<`. -/
def readOp : Str := "<<".toList

/-- The write-redirection operator `>>`. -/
def writeOp : Str := ">>".toList

/-- Redirection descriptor attached to a segment (Rust `enum FilePipe`). -/
inductive FilePipe where
  | ReadFile (path : Str)
  | WriteFile (path : Str)
deriving DecidableEq

/-- The flag set of a Rust `std::fs::OpenOptions` value
(`OpenOptions::new` starts with every flag `false`). -/
structure OpenOpts where
  read : Bool
  write : Bool
  append : Bool
  truncate : Bool
  create : Bool
  createNew : Bool
deriving DecidableEq

/-- `File::options().write(true).create(true)`: the options the executor
uses to open a write-redirection target; every other flag keeps its
default `false`. -/
def writeRedirectOpts : OpenOpts :=
  { read := false, write := true, append := false, truncate := false,
    create := true, createNew := false }

/-- The builtin classifier's codomain (Rust `enum Builtin`). -/
inductive Builtin where
  | History
  | Cd
  | Pwd
  | Clear
  | Exit
  | ClearHistory
  | Help
  | Other (s : Str)
deriving DecidableEq

/-- `Builtin::from_str`: exact, case-sensitive equality against the fixed
set; anything else classifies as `Other`. -/
def builtinFromStr (s : Str) : Builtin :=
  if s = "history".toList then .History
  else if s = "cd".toList then .Cd
  else if s = "pwd".toList then .Pwd
  else if s = "clear".toList then .Clear
  else if s = "exit".toList then .Exit
  else if s = "help".toList then .Help
  else if s = "clearHistory".toList then .ClearHistory
  else .Other s

/-- A parsed segment: the optional redirection descriptor plus the
whitespace tokens of the command portion. -/
structure Segment where
  file : Option FilePipe
  tokens : List Str
deriving DecidableEq

/-- The per-segment redirection split of `handel_command`: check for `<<`
first, else `>>`, split the segment text on the operator, trim the second
piece as the file path and whitespace-tokenize the first.  Returns `none`
where the Rust code would panic on a missing second split piece. -/
def parseSegment (cmd : Str) : Option Segment :=
  if containsSub readOp cmd then
    match splitOnL readOp cmd with
    | b :: after :: _ => some ⟨some (.ReadFile (trimL after)), splitWs b⟩
    | _ => none
  else if containsSub writeOp cmd then
    match splitOnL writeOp cmd with
    | b :: after :: _ => some ⟨some (.WriteFile (trimL after)), splitWs b⟩
    | _ => none
  else some ⟨none, splitWs cmd⟩

/-- What the executor keeps of a spawned child: the program name and
whether its standard output was captured by a pipe (Rust
`Child.stdout.is_some()`). -/
structure Child where
  name : Str
  stdoutPiped : Bool
deriving DecidableEq

/-- Resolved standard-input source of an external segment. -/
inductive StdinSrc where
  | fromFile (path : Str)
  | fromPipe (ofChild : Str)
  | inherit
deriving DecidableEq

/-- Resolved standard-output sink of an external segment. -/
inductive StdoutSink where
  | toFile (path : Str) (opts : OpenOpts)
  | piped
  | inherit
deriving DecidableEq

/-- The errors `handel_command` propagates with `?`. -/
inductive ErrKind where
  | openReadErr (path : Str)
  | openWriteErr (path : Str)
  | clearScreenErr
  | clearHistoryErr
  | writeHistErr
  | waitErr
deriving DecidableEq

/-- Overall outcome of one input line: normal return, a `?`-propagated
error, or a panic (`Option::unwrap` on `None`). -/
inductive Outcome where
  | ok
  | err (e : ErrKind)
  | panicked
deriving DecidableEq

/-- Observable side effects of one input line, in order. -/
inductive Event where
  | printedHistory (entries : List Str)
  | chdirFailed (path : Str)
  | printedPath (path : Str)
  | clearedScreen
  | clearedHistory
  | printedHelp
  | spawned (name : Str) (args : List Str) (stdin : StdinSrc) (stdout : StdoutSink)
  | spawnFailed (name : Str)
  | waited (name : Str)
deriving DecidableEq

/-- Boolean oracles deciding whether each OS call succeeds, plus the
recorded history entries. -/
structure Env where
  openReadOk : Str → Bool
  openWriteOk : Str → Bool
  spawnOk : Str → Bool
  chdirOk : Str → Bool
  clearScreenOk : Bool
  clearHistoryOk : Bool
  writeHistFileOk : Bool
  waitOk : Bool
  histEntries : List Str

/-- Executor state threaded through the segment loop: the displayed
current path, the previous-process-handle slot, and the event log. -/
structure ExecState where
  path : Str
  prev : Option Child
  events : List Event
deriving DecidableEq

/-- Result of one resolution step: a value, a `?`-propagated error, or a
panic. -/
inductive StepRes (α : Type) where
  | ok (a : α)
  | err (e : ErrKind)
  | panic
deriving DecidableEq

/-- Stdin resolution of an external segment: the read-redirection file if
present, else the previous child's captured stdout
(`output.stdout.unwrap()` — a panic when that stdout was not piped), else
inherit the terminal. -/
def resolveStdin (env : Env) (file : Option FilePipe) (prev : Option Child) :
    StepRes StdinSrc :=
  match file with
  | some (.ReadFile p) =>
    if env.openReadOk p then .ok (.fromFile p) else .err (.openReadErr p)
  | _ =>
    match prev with
    | some c => if c.stdoutPiped then .ok (.fromPipe c.name) else .panic
    | none => .ok .inherit

/-- Stdout resolution of an external segment: the write-redirection file
if present (opened with `writeRedirectOpts`), else a fresh pipe when
another segment follows, else inherit the terminal. -/
def resolveStdout (env : Env) (file : Option FilePipe) (hasNext : Bool) :
    StepRes StdoutSink :=
  match file with
  | some (.WriteFile p) =>
    if env.openWriteOk p then .ok (.toFile p writeRedirectOpts)
    else .err (.openWriteErr p)
  | _ => if hasNext then .ok .piped else .ok .inherit

/-- The tail of `handel_command`: wait on the remaining previous child,
if any; a wait failure propagates. -/
def afterLoop (env : Env) (st : ExecState) : Outcome × ExecState :=
  match st.prev with
  | some c =>
    if env.waitOk then
      (.ok, { st with prev := none, events := st.events ++ [.waited c.name] })
    else (.err .waitErr, st)
  | none => (.ok, st)

/-- The segment loop of `handel_command`, one segment per iteration,
carrying the previous-handle slot inside the state. -/
def execSegs (env : Env) : List Str → ExecState → Outcome × ExecState
  | [], st => afterLoop env st
  | cmd :: rest, st =>
    match parseSegment cmd with
    | none => (.panicked, st)
    | some seg =>
      match seg.tokens with
      | [] => (.panicked, st)
      | name :: args =>
        match builtinFromStr name with
        | .History =>
          execSegs env rest
            { st with events := st.events ++ [.printedHistory env.histEntries] }
        | .Cd =>
          if env.chdirOk (args.headD "/".toList) then
            execSegs env rest { st with path := args.headD "/".toList, prev := none }
          else
            execSegs env rest
              { st with prev := none,
                        events := st.events ++ [.chdirFailed (args.headD "/".toList)] }
        | .Pwd =>
          execSegs env rest { st with events := st.events ++ [.printedPath st.path] }
        | .Clear =>
          if env.clearScreenOk then
            execSegs env rest { st with events := st.events ++ [.clearedScreen] }
          else (.err .clearScreenErr, st)
        | .Exit => afterLoop env st
        | .ClearHistory =>
          if env.clearHistoryOk then
            if env.writeHistFileOk then
              execSegs env rest { st with events := st.events ++ [.clearedHistory] }
            else (.err .writeHistErr, st)
          else (.err .clearHistoryErr, st)
        | .Help =>
          execSegs env rest { st with events := st.events ++ [.printedHelp] }
        | .Other nm =>
          match resolveStdin env seg.file st.prev with
          | .panic => (.panicked, st)
          | .err e => (.err e, st)
          | .ok sin =>
            match resolveStdout env seg.file (!rest.isEmpty) with
            | .panic => (.panicked, st)
            | .err e => (.err e, st)
            | .ok sout =>
              if env.spawnOk nm then
                execSegs env rest
                  { st with prev := some ⟨nm, decide (sout = .piped)⟩,
                            events := st.events ++ [.spawned nm args sin sout] }
              else
                execSegs env rest
                  { st with prev := none,
                            events := st.events ++ [.spawnFailed nm] }

/-- `handel_command`: trim the input line, split it on `" | "`, and run
the segment loop with an empty previous-handle slot. -/
def handelCommand (env : Env) (input : Str) (path : Str) : Outcome × ExecState :=
  execSegs env (splitOnL pipeSep (trimL input)) ⟨path, none, []⟩

/-- Oracle environment in which every OS call succeeds and the recorded
history is empty. -/
def envAll : Env :=
  { openReadOk := fun _ => true, openWriteOk := fun _ => true,
    spawnOk := fun _ => true, chdirOk := fun _ => true,
    clearScreenOk := true, clearHistoryOk := true,
    writeHistFileOk := true, waitOk := true, histEntries := [] }

/-- The command token the dispatcher extracts from a segment, if any. -/
def commandToken (cmd : Str) : Option Str :=
  match parseSegment cmd with
  | some seg => seg.tokens.head?
  | none => none

/-- The prefix of `l` strictly before the first occurrence of `sep`
(all of `l` when there is none). -/
def beforeFirst (sep : Str) : Str → Str
  | [] => []
  | c :: rest =>
    if isPrefixL sep (c :: rest) then [] else c :: beforeFirst sep rest

/-- Stated from the spec's words for comparison: "everything following
the first occurrence of the operator" — the untouched remainder of `l`
after the first occurrence of `sep`. -/
def afterFirst (sep : Str) : Str → Str
  | [] => []
  | c :: rest =>
    if isPrefixL sep (c :: rest) then (c :: rest).drop sep.length
    else afterFirst sep rest

/-- Stated from the spec's words for comparison: write-redirection files
are "opened create-if-absent with write-truncate-or-append semantics". -/
def specWriteTruncOrAppend (o : OpenOpts) : Prop :=
  o.create = true ∧ o.write = true ∧ (o.truncate = true ∨ o.append = true)

/-- Join pieces with the separator between consecutive pieces. -/
def joinSep (sep : Str) : List Str → Str
  | [] => []
  | [x] => x
  | x :: y :: rest => x ++ sep ++ joinSep sep (y :: rest)

lemma isPrefixL_nil (sep : Str) (h : sep ≠ []) : isPrefixL sep [] = false := by
  cases sep with
  | nil => exact absurd rfl h
  | cons a sa => rfl

lemma isPrefixL_append_drop {sep l : Str} (h : isPrefixL sep l = true) :
    sep ++ l.drop sep.length = l := by
  induction sep generalizing l with
  | nil => simp
  | cons a sa ih =>
    cases l with
    | nil => exact absurd h (by simp [isPrefixL])
    | cons b sb =>
      simp only [isPrefixL, Bool.and_eq_true, beq_iff_eq] at h
      simp only [List.length_cons, List.cons_append, List.drop_succ_cons]
      rw [h.1, ih h.2]

lemma isPrefixL_append_right {sep x : Str} (t : Str) (h : isPrefixL sep x = true) :
    isPrefixL sep (x ++ t) = true := by
  induction sep generalizing x with
  | nil => rfl
  | cons a sa ih =>
    cases x with
    | nil => exact absurd h (by simp [isPrefixL])
    | cons b sb =>
      simp only [isPrefixL, Bool.and_eq_true, beq_iff_eq] at h
      simp only [List.cons_append, isPrefixL, Bool.and_eq_true, beq_iff_eq]
      exact ⟨h.1, ih h.2⟩

lemma beforeFirst_prefix (sep : Str) (l : Str) :
    ∃ t, beforeFirst sep l ++ t = l := by
  induction l with
  | nil => exact ⟨[], rfl⟩
  | cons c rest ih =>
    by_cases hpre : isPrefixL sep (c :: rest) = true
    · exact ⟨c :: rest, by simp [beforeFirst, hpre]⟩
    · obtain ⟨t, ht⟩ := ih
      exact ⟨t, by simp [beforeFirst, hpre, ht]⟩

lemma containsSub_beforeFirst {sep : Str} (hsep : sep ≠ []) (l : Str) :
    containsSub sep (beforeFirst sep l) = false := by
  induction l with
  | nil => simp [beforeFirst, containsSub, isPrefixL_nil sep hsep]
  | cons c rest ih =>
    by_cases hpre : isPrefixL sep (c :: rest) = true
    · simp [beforeFirst, hpre, containsSub, isPrefixL_nil sep hsep]
    · simp only [beforeFirst, hpre, if_false, containsSub, ih,
        Bool.or_false]
      cases hfirst : isPrefixL sep (c :: beforeFirst sep rest) with
      | false => rfl
      | true =>
        obtain ⟨t, ht⟩ := beforeFirst_prefix sep rest
        have : isPrefixL sep ((c :: beforeFirst sep rest) ++ t) = true :=
          isPrefixL_append_right t hfirst
        rw [List.cons_append, ht] at this
        exact absurd this (by simpa using hpre)

lemma beforeFirst_eq_self {sep l : Str} (h : containsSub sep l = false) :
    beforeFirst sep l = l := by
  induction l with
  | nil => rfl
  | cons c rest ih =>
    simp only [containsSub, Bool.or_eq_false_iff] at h
    simp [beforeFirst, h.1, ih h.2]

lemma beforeFirst_append {sep l : Str} (h : containsSub sep l = true) :
    beforeFirst sep l ++ (sep ++ afterFirst sep l) = l := by
  induction l with
  | nil =>
    cases sep with
    | nil => rfl
    | cons a sa => exact absurd h (by simp [containsSub, isPrefixL])
  | cons c rest ih =>
    by_cases hpre : isPrefixL sep (c :: rest) = true
    · simp only [beforeFirst, hpre, if_true, afterFirst, List.nil_append]
      exact isPrefixL_append_drop hpre
    · simp only [containsSub, Bool.or_eq_true] at h
      rcases h with h | h
      · exact absurd h hpre
      · simp [beforeFirst, afterFirst, hpre, ih h]

lemma afterFirst_length_lt {sep l : Str} (hsep : sep ≠ [])
    (h : containsSub sep l = true) :
    (afterFirst sep l).length < l.length := by
  have hb := beforeFirst_append h
  have := congrArg List.length hb
  simp only [List.length_append] at this
  have hs : 0 < sep.length := List.length_pos.mpr hsep
  omega

lemma splitOnAux_skip (sep : Str) :
    ∀ (l : Str) (k : Nat) (acc : Str),
      splitOnAux sep k acc l = splitOnAux sep 0 acc (l.drop k) := by
  intro l
  induction l with
  | nil => intro k acc; cases k <;> rfl
  | cons c rest ih =>
    intro k acc
    cases k with
    | zero => rfl
    | succ k => simp only [splitOnAux, List.drop_succ_cons, ih]

lemma splitOnAux_ne_nil (sep : Str) :
    ∀ (l : Str) (k : Nat) (acc : Str), splitOnAux sep k acc l ≠ [] := by
  intro l
  induction l with
  | nil => intro k acc; cases k <;> simp [splitOnAux]
  | cons c rest ih =>
    intro k acc
    cases k with
    | succ k => simpa only [splitOnAux] using ih k acc
    | zero =>
      by_cases hpre : isPrefixL sep (c :: rest) = true
      · simp [splitOnAux, hpre]
      · simpa only [splitOnAux, hpre, if_false] using ih 0 (c :: acc)

lemma splitOnAux_not_contains {sep : Str} :
    ∀ {l : Str} (acc : Str), containsSub sep l = false →
      splitOnAux sep 0 acc l = [acc.reverse ++ l] := by
  intro l
  induction l with
  | nil => intro acc _; simp [splitOnAux]
  | cons c rest ih =>
    intro acc h
    simp only [containsSub, Bool.or_eq_false_iff] at h
    simp only [splitOnAux, h.1, if_false]
    rw [ih (c :: acc) h.2]
    simp

lemma splitOnAux_contains {sep : Str} (hsep : sep ≠ []) :
    ∀ {l : Str} (acc : Str), containsSub sep l = true →
      splitOnAux sep 0 acc l =
        (acc.reverse ++ beforeFirst sep l) ::
          splitOnAux sep 0 [] (afterFirst sep l) := by
  intro l
  induction l with
  | nil => intro acc h; rw [containsSub, isPrefixL_nil sep hsep] at h; cases h
  | cons c rest ih =>
    intro acc h
    by_cases hpre : isPrefixL sep (c :: rest) = true
    · simp only [splitOnAux, hpre, if_true, beforeFirst, afterFirst,
        List.append_nil]
      rw [splitOnAux_skip]
      cases sep with
      | nil => exact absurd rfl hsep
      | cons a sa => simp
    · simp only [containsSub, Bool.or_eq_true] at h
      rcases h with h | h
      · exact absurd h hpre
      · simp only [splitOnAux, hpre, if_false, beforeFirst, afterFirst]
        rw [ih (c :: acc) h]
        simp

lemma splitOnL_single {sep l : Str} (h : containsSub sep l = false) :
    splitOnL sep l = [l] := by
  simpa [splitOnL] using splitOnAux_not_contains [] h

lemma splitOnL_eq_cons {sep l : Str} (hsep : sep ≠ [])
    (h : containsSub sep l = true) :
    splitOnL sep l =
      beforeFirst sep l :: splitOnL sep (afterFirst sep l) := by
  simpa [splitOnL] using splitOnAux_contains hsep [] h

lemma splitOnL_two {sep l : Str} (hsep : sep ≠ [])
    (h : containsSub sep l = true) :
    ∃ t, splitOnL sep l =
      beforeFirst sep l :: beforeFirst sep (afterFirst sep l) :: t := by
  rw [splitOnL_eq_cons hsep h]
  by_cases h2 : containsSub sep (afterFirst sep l) = true
  · rw [splitOnL_eq_cons hsep h2]
    exact ⟨_, rfl⟩
  · have h2' : containsSub sep (afterFirst sep l) = false := by
      simpa using h2
    rw [splitOnL_single h2', beforeFirst_eq_self h2']
    exact ⟨[], rfl⟩

lemma joinSep_splitOnL {sep : Str} (hsep : sep ≠ []) (l : Str) :
    joinSep sep (splitOnL sep l) = l := by
  suffices h : ∀ (n : Nat) (l : Str), l.length ≤ n →
      joinSep sep (splitOnL sep l) = l from h l.length l le_rfl
  intro n
  induction n with
  | zero =>
    intro l hl
    have : l = [] := List.eq_nil_of_length_eq_zero (Nat.le_zero.mp hl)
    subst this
    rfl
  | succ n ih =>
    intro l hl
    by_cases hc : containsSub sep l = true
    · rw [splitOnL_eq_cons hsep hc]
      have hlt := afterFirst_length_lt hsep hc
      have hrec := ih (afterFirst sep l) (by omega)
      rcases hsplit : splitOnL sep (afterFirst sep l) with _ | ⟨a, t⟩
      · exact absurd hsplit (splitOnAux_ne_nil sep _ 0 [])
      · rw [hsplit] at hrec
        show beforeFirst sep l ++ sep ++ joinSep sep (a :: t) = l
        rw [hrec, List.append_assoc]
        exact beforeFirst_append hc
    · have hc' : containsSub sep l = false := by simpa using hc
      rw [splitOnL_single hc']
      rfl

lemma not_contains_of_mem_splitOnL {sep : Str} (hsep : sep ≠ []) (l : Str) :
    ∀ p ∈ splitOnL sep l, containsSub sep p = false := by
  suffices h : ∀ (n : Nat) (l : Str), l.length ≤ n →
      ∀ p ∈ splitOnL sep l, containsSub sep p = false from h l.length l le_rfl
  intro n
  induction n with
  | zero =>
    intro l hl p hp
    have : l = [] := List.eq_nil_of_length_eq_zero (Nat.le_zero.mp hl)
    subst this
    have : p = [] := by simpa [splitOnL, splitOnAux] using hp
    subst this
    simp [containsSub, isPrefixL_nil sep hsep]
  | succ n ih =>
    intro l hl p hp
    by_cases hc : containsSub sep l = true
    · rw [splitOnL_eq_cons hsep hc] at hp
      rcases List.mem_cons.mp hp with hp | hp
      · subst hp
        exact containsSub_beforeFirst hsep l
      · have hlt := afterFirst_length_lt hsep hc
        exact ih (afterFirst sep l) (by omega) p hp
    · have hc' : containsSub sep l = false := by simpa using hc
      rw [splitOnL_single hc'] at hp
      have : p = l := by simpa using hp
      subst this
      exact hc'

lemma builtinFromStr_eq_cd (s : Str) (h : builtinFromStr s = .Cd) :
    s = "cd".toList := by
  unfold builtinFromStr at h
  split_ifs at h <;> first | assumption | cases h

lemma afterLoop_path (env : Env) (st : ExecState) :
    ((afterLoop env st).2).path = st.path := by
  rcases hp : st.prev with _ | c
  · simp [afterLoop, hp]
  · by_cases hw : env.waitOk = true
    · simp [afterLoop, hp, hw]
    · simp only [Bool.not_eq_true] at hw
      simp [afterLoop, hp, hw]

lemma execSegs_path (env : Env) :
    ∀ (segs : List Str) (st : ExecState),
      (∀ cmd ∈ segs, commandToken cmd ≠ some ("cd".toList)) →
      ((execSegs env segs st).2).path = st.path := by
  intro segs
  induction segs with
  | nil => intro st _; exact afterLoop_path env st
  | cons cmd rest ih =>
    intro st h
    have hcmd : commandToken cmd ≠ some ("cd".toList) := h cmd (by simp)
    have hrest : ∀ c ∈ rest, commandToken c ≠ some ("cd".toList) :=
      fun c hc => h c (by simp [hc])
    rcases hps : parseSegment cmd with _ | seg
    · simp [execSegs, hps]
    · rcases htk : seg.tokens with _ | ⟨name, args⟩
      · simp [execSegs, hps, htk]
      · have hname : name ≠ "cd".toList := by
          intro e
          exact hcmd (by simp [commandToken, hps, htk, e])
        cases hb : builtinFromStr name with
        | History =>
          simp only [execSegs, hps, htk, hb]
          exact ih _ hrest
        | Cd => exact absurd (builtinFromStr_eq_cd name hb) hname
        | Pwd =>
          simp only [execSegs, hps, htk, hb]
          exact ih _ hrest
        | Clear =>
          cases hcs : env.clearScreenOk with
          | true =>
            simp only [execSegs, hps, htk, hb, hcs, if_true]
            exact ih _ hrest
          | false => simp [execSegs, hps, htk, hb, hcs]
        | Exit =>
          simp only [execSegs, hps, htk, hb]
          exact afterLoop_path env st
        | ClearHistory =>
          cases hch : env.clearHistoryOk with
          | false => simp [execSegs, hps, htk, hb, hch]
          | true =>
            cases hwr : env.writeHistFileOk with
            | false => simp [execSegs, hps, htk, hb, hch, hwr]
            | true =>
              simp only [execSegs, hps, htk, hb, hch, hwr, if_true]
              exact ih _ hrest
        | Help =>
          simp only [execSegs, hps, htk, hb]
          exact ih _ hrest
        | Other nm =>
          cases hsi : resolveStdin env seg.file st.prev with
          | panic => simp [execSegs, hps, htk, hb, hsi]
          | err e => simp [execSegs, hps, htk, hb, hsi]
          | ok s =>
            cases hso : resolveStdout env seg.file (!rest.isEmpty) with
            | panic => simp [execSegs, hps, htk, hb, hsi, hso]
            | err e => simp [execSegs, hps, htk, hb, hsi, hso]
            | ok o =>
              cases hsp : env.spawnOk nm with
              | true =>
                simp only [execSegs, hps, htk, hb, hsi, hso, hsp, if_true]
                exact ih _ hrest
              | false =>
                simp only [execSegs, hps, htk, hb, hsi, hso, hsp,
                  Bool.false_eq_true, if_false]
                exact ih _ hrest

/-- C1: the spec says a segment with an empty or all-whitespace command
portion is a silent no-op and the executor does not fail; the code
instead panics (`parts.next().unwrap()` on a segment with no token).  On
the empty input line the outcome is a panic with nothing run, and on
`ls |  | wc` the panic at the empty middle stage also abandons the
remaining segment. -/
theorem C1_empty_command_panics :
    (∀ (env : Env) (path : Str),
        handelCommand env [] path = (.panicked, ⟨path, none, []⟩)) ∧
    handelCommand envAll (("ls |  | wc").toList) ("/".toList) =
      (.panicked, ⟨"/".toList, some ⟨"ls".toList, true⟩,
        [.spawned ("ls".toList) [] .inherit .piped]⟩) := by
  exact ⟨fun env path => rfl, by decide⟩

/-- C2 counterexample: on `a | history | b` the executor spawns `b` with
its stdin connected to `a`'s piped stdout — the history builtin left the
previous-handle slot intact, so the segment after `history` does receive
the preceding stage's output, contrary to the claim that the slot is
cleared. -/
theorem C2_cex :
    Event.spawned ("b".toList) [] (.fromPipe ("a".toList)) .inherit ∈
      (handelCommand envAll (("a | history | b").toList) ("/".toList)).2.events := by
  decide

/-- C2 as amended: dispatching the history builtin prints every recorded
history entry, spawns no process, and leaves the executor state — in
particular the previous-handle slot — otherwise unchanged, so a later
external segment can still receive a preceding stage's output. -/
theorem C2_history_dispatch (env : Env) (rest : List Str) (st : ExecState) :
    execSegs env (("history".toList) :: rest) st =
      execSegs env rest
        { st with events := st.events ++ [.printedHistory env.histEntries] } := rfl

/-- C3: refuted by the code — running `a >> f | b` with every open and
spawn succeeding, `a`'s stdout went to the file, so the stored handle's
captured-stdout slot is `None` and the executor's
`output.stdout.unwrap()` panics while resolving `b`'s stdin instead of
the resolution being well-defined. -/
theorem C3_stdin_from_redirected_stage_panics :
    (handelCommand envAll (("a >> f | b").toList) ("/".toList)).1 = .panicked ∧
    (handelCommand envAll (("a >> f | b").toList) ("/".toList)).2.events =
      [.spawned ("a".toList) [] .inherit
        (.toFile ("f".toList) writeRedirectOpts)] := by
  decide

/-- C4 counterexample: on `sort >> out.txt` the executor opens the target
with `write(true).create(true)` only — truncate and append are both left
`false` — so the claimed "write-truncate-or-append semantics" is false of
the options the code uses. -/
theorem C4_cex :
    (handelCommand envAll (("sort >> out.txt").toList) ("/".toList)).2.events =
      [.spawned ("sort".toList) [] .inherit
        (.toFile ("out.txt".toList) writeRedirectOpts),
       .waited ("sort".toList)] ∧
    ¬ specWriteTruncOrAppend writeRedirectOpts := by
  refine ⟨by decide, ?_⟩
  unfold specWriteTruncOrAppend
  decide

/-- C4 as amended: the stdout sink of an external segment is resolved in
order — a write-redirection target first, opened create-if-absent in
plain write mode (neither truncate nor append); else an OS pipe's write
end when another segment follows; else the inherited terminal output. -/
theorem C4_stdout_order (env : Env) (file : Option FilePipe) (hasNext : Bool) :
    (∀ p, file = some (.WriteFile p) →
        resolveStdout env file hasNext =
          if env.openWriteOk p then .ok (.toFile p writeRedirectOpts)
          else .err (.openWriteErr p)) ∧
    ((∀ p, file ≠ some (.WriteFile p)) →
        resolveStdout env file hasNext =
          .ok (if hasNext then .piped else .inherit)) ∧
    writeRedirectOpts = ⟨false, true, false, false, true, false⟩ := by
  refine ⟨?_, ?_, rfl⟩
  · intro p hp
    subst hp
    rfl
  · intro hno
    rcases file with _ | f
    · cases hasNext <;> rfl
    · rcases f with p | p
      · cases hasNext <;> rfl
      · exact absurd rfl (hno p)

theorem C4_w :
    resolveStdout envAll (some (.WriteFile ("out.txt".toList))) false =
      .ok (.toFile ("out.txt".toList) writeRedirectOpts) ∧
    resolveStdout envAll none true = .ok .piped := by
  constructor
  · have h := (C4_stdout_order envAll
      (some (.WriteFile ("out.txt".toList))) false).1 ("out.txt".toList) rfl
    simpa [envAll] using h
  · simpa using (C4_stdout_order envAll none true).2.1 (by simp)

/-- C5 counterexample: in the segment `cat << a << b` the operator occurs
twice; the code takes only the text between the first and second `<<` as
the file path (`a`), not the trimmed remainder after the first operator
(`a << b`) that the claim describes. -/
theorem C5_cex :
    parseSegment (("cat << a << b").toList) =
      some ⟨some (.ReadFile ("a".toList)), [("cat".toList)]⟩ ∧
    trimL (afterFirst readOp (("cat << a << b").toList)) = ("a << b").toList ∧
    ("a".toList : Str) ≠ ("a << b").toList := by
  exact ⟨by decide, by decide, by decide⟩

/-- C5 as amended: the redirection file path is the trimmed text between
the first and the second occurrence of the operator — that is, the
trimmed second piece of splitting the segment on the operator — which
coincides with the trimmed remainder after the operator exactly when the
operator does not occur a second time. -/
theorem C5_redirect_path (cmd : Str) :
    (containsSub readOp cmd = true →
        parseSegment cmd =
          some ⟨some (.ReadFile
              (trimL (beforeFirst readOp (afterFirst readOp cmd)))),
            splitWs (beforeFirst readOp cmd)⟩) ∧
    (containsSub readOp cmd = false → containsSub writeOp cmd = true →
        parseSegment cmd =
          some ⟨some (.WriteFile
              (trimL (beforeFirst writeOp (afterFirst writeOp cmd)))),
            splitWs (beforeFirst writeOp cmd)⟩) ∧
    (∀ sep : Str, containsSub sep (afterFirst sep cmd) = false →
        beforeFirst sep (afterFirst sep cmd) = afterFirst sep cmd) := by
  refine ⟨?_, ?_, fun sep h => beforeFirst_eq_self h⟩
  · intro hc
    obtain ⟨t, ht⟩ := splitOnL_two (by decide : readOp ≠ []) hc
    simp [parseSegment, hc, ht]
  · intro hr hw
    obtain ⟨t, ht⟩ := splitOnL_two (by decide : writeOp ≠ []) hw
    simp [parseSegment, hr, hw, ht]

theorem C5_w :
    parseSegment (("cat << f").toList) =
      some ⟨some (.ReadFile
          (trimL (beforeFirst readOp (afterFirst readOp (("cat << f").toList))))),
        splitWs (beforeFirst readOp (("cat << f").toList))⟩ ∧
    parseSegment (("sort >> o").toList) =
      some ⟨some (.WriteFile
          (trimL (beforeFirst writeOp (afterFirst writeOp (("sort >> o").toList))))),
        splitWs (beforeFirst writeOp (("sort >> o").toList))⟩ ∧
    beforeFirst readOp (afterFirst readOp (("cat << f").toList)) =
      afterFirst readOp (("cat << f").toList) := by
  exact ⟨(C5_redirect_path _).1 (by decide),
         (C5_redirect_path _).2.1 (by decide) (by decide),
         (C5_redirect_path (("cat << f").toList)).2.2 readOp (by decide)⟩

/-- C6: whenever a segment's text contains both `<<` and `>>`, detection
honors only the read redirection — regardless of the operators'
positions — and the command portion (the text before the first `<<`) is
tokenized as plain whitespace-split words, so any `>>` there is ordinary
argument text. -/
theorem C6_both_operators (cmd : Str) (h1 : containsSub readOp cmd = true)
    (h2 : containsSub writeOp cmd = true) :
    ∃ p, parseSegment cmd =
      some ⟨some (.ReadFile p), splitWs (beforeFirst readOp cmd)⟩ := by
  obtain ⟨t, ht⟩ := splitOnL_two (by decide : readOp ≠ []) h1
  refine ⟨trimL (beforeFirst readOp (afterFirst readOp cmd)), ?_⟩
  simp [parseSegment, h1, ht]

theorem C6_w :
    ∃ p, parseSegment (("a >> f << g").toList) =
      some ⟨some (.ReadFile p),
        splitWs (beforeFirst readOp (("a >> f << g").toList))⟩ :=
  C6_both_operators (("a >> f << g").toList) (by decide) (by decide)

/-- C7: the trimmed line is split exactly at occurrences of the literal
three-character token `" | "`: joining the segments with that token
recovers the trimmed line, no segment retains an occurrence of the
token, a line without the token stays a single segment (so a pipe
character not padded by exactly one space on each side never separates),
and the executor runs precisely these segments. -/
theorem C7_pipe_split (line : Str) :
    joinSep pipeSep (splitOnL pipeSep (trimL line)) = trimL line ∧
    (∀ p ∈ splitOnL pipeSep (trimL line), containsSub pipeSep p = false) ∧
    (containsSub pipeSep (trimL line) = false →
        splitOnL pipeSep (trimL line) = [trimL line]) ∧
    (∀ (env : Env) (path : Str),
        handelCommand env line path =
          execSegs env (splitOnL pipeSep (trimL line)) ⟨path, none, []⟩) := by
  exact ⟨joinSep_splitOnL (by decide) _,
         not_contains_of_mem_splitOnL (by decide) _,
         fun h => splitOnL_single h,
         fun env path => rfl⟩

theorem C7_w :
    joinSep pipeSep (splitOnL pipeSep (trimL (("a |b | c").toList))) =
      trimL (("a |b | c").toList) ∧
    containsSub pipeSep (("a |b").toList) = false ∧
    splitOnL pipeSep (trimL (("a |b").toList)) = [trimL (("a |b").toList)] ∧
    handelCommand envAll (("a |b | c").toList) ("/".toList) =
      execSegs envAll (splitOnL pipeSep (trimL (("a |b | c").toList)))
        ⟨("/".toList), none, []⟩ :=
  ⟨(C7_pipe_split (("a |b | c").toList)).1,
   (C7_pipe_split (("a |b | c").toList)).2.1 (("a |b").toList) (by decide),
   (C7_pipe_split (("a |b").toList)).2.2.1 (by decide),
   (C7_pipe_split (("a |b | c").toList)).2.2.2 envAll ("/".toList)⟩

/-- C8: the change-directory builtin takes its first argument token as
the target (defaulting to `/` when absent); on oracle failure it reports
the error and leaves the displayed path unchanged, on success it sets
the displayed path to the argument string, and in both cases it clears
the previous-handle slot and execution continues with the remaining
segments. -/
theorem C8_cd_builtin (env : Env) (st : ExecState) (rest : List Str)
    (cmd : Str) (f : Option FilePipe) (args : List Str)
    (hp : parseSegment cmd = some ⟨f, ("cd".toList) :: args⟩) :
    execSegs env (cmd :: rest) st =
      execSegs env rest
        (if env.chdirOk (args.headD ("/".toList)) then
          { st with path := args.headD ("/".toList), prev := none }
         else
          { st with prev := none,
                    events := st.events ++
                      [.chdirFailed (args.headD ("/".toList))] }) := by
  have hb : builtinFromStr ("cd".toList) = Builtin.Cd := by decide
  have hb' : builtinFromStr (['c', 'd'] : Str) = Builtin.Cd := hb
  cases hD : env.chdirOk (args.head?.getD (['/'] : Str)) with
  | true => simp [execSegs, hp, hb, hb', hD]
  | false => simp [execSegs, hp, hb, hb', hD]

theorem C8_w :
    execSegs envAll [("cd".toList)] ⟨("/tmp".toList), none, []⟩ =
      execSegs envAll [] ⟨("/".toList), none, []⟩ :=
  C8_cd_builtin envAll ⟨("/tmp".toList), none, []⟩ [] ("cd".toList)
    none [] (by decide)

/-- C9: a redirection-open failure is fatal for the line — the error is
returned at once with the state as it stood and no later segment runs —
while a spawn failure is non-fatal: it is reported, the previous-handle
slot is cleared, and the loop continues with the remaining segments. -/
theorem C9_error_asymmetry :
    (∀ (env : Env) (st : ExecState) (rest : List Str) (cmd p nmTok : Str)
        (args : List Str) (nm : Str),
        parseSegment cmd = some ⟨some (.ReadFile p), nmTok :: args⟩ →
        builtinFromStr nmTok = .Other nm →
        env.openReadOk p = false →
        execSegs env (cmd :: rest) st = (.err (.openReadErr p), st)) ∧
    (∀ (env : Env) (st : ExecState) (rest : List Str) (cmd p nmTok : Str)
        (args : List Str) (nm : Str) (s : StdinSrc),
        parseSegment cmd = some ⟨some (.WriteFile p), nmTok :: args⟩ →
        builtinFromStr nmTok = .Other nm →
        resolveStdin env (some (.WriteFile p)) st.prev = .ok s →
        env.openWriteOk p = false →
        execSegs env (cmd :: rest) st = (.err (.openWriteErr p), st)) ∧
    (∀ (env : Env) (st : ExecState) (rest : List Str) (cmd nmTok : Str)
        (f : Option FilePipe) (args : List Str) (nm : Str)
        (s : StdinSrc) (o : StdoutSink),
        parseSegment cmd = some ⟨f, nmTok :: args⟩ →
        builtinFromStr nmTok = .Other nm →
        resolveStdin env f st.prev = .ok s →
        resolveStdout env f (!rest.isEmpty) = .ok o →
        env.spawnOk nm = false →
        execSegs env (cmd :: rest) st =
          execSegs env rest
            { st with prev := none,
                      events := st.events ++ [.spawnFailed nm] }) := by
  refine ⟨?_, ?_, ?_⟩
  · intro env st rest cmd p nmTok args nm hp hb ho
    simp [execSegs, hp, hb, resolveStdin, ho]
  · intro env st rest cmd p nmTok args nm s hp hb hsi ho
    simp [execSegs, hp, hb, hsi, resolveStdout, ho]
  · intro env st rest cmd nmTok f args nm s o hp hb hsi hso hsp
    simp [execSegs, hp, hb, hsi, hso, hsp]

theorem C9_w :
    execSegs { envAll with openReadOk := fun _ => false }
        [(("cat << f").toList)] ⟨("/".toList), none, []⟩ =
      (.err (.openReadErr ("f".toList)), ⟨("/".toList), none, []⟩) ∧
    execSegs { envAll with openWriteOk := fun _ => false }
        [(("sort >> o").toList)] ⟨("/".toList), none, []⟩ =
      (.err (.openWriteErr ("o".toList)), ⟨("/".toList), none, []⟩) ∧
    execSegs { envAll with spawnOk := fun _ => false }
        [("nosuchprogram".toList)] ⟨("/".toList), none, []⟩ =
      execSegs { envAll with spawnOk := fun _ => false } []
        ⟨("/".toList), none, [.spawnFailed ("nosuchprogram".toList)]⟩ := by
  refine ⟨?_, ?_, ?_⟩
  · exact C9_error_asymmetry.1 { envAll with openReadOk := fun _ => false }
      ⟨("/".toList), none, []⟩ [] (("cat << f").toList) ("f".toList)
      ("cat".toList) [] ("cat".toList) (by decide) (by decide) rfl
  · exact C9_error_asymmetry.2.1 { envAll with openWriteOk := fun _ => false }
      ⟨("/".toList), none, []⟩ [] (("sort >> o").toList) ("o".toList)
      ("sort".toList) [] ("sort".toList) .inherit
      (by decide) (by decide) rfl rfl
  · exact C9_error_asymmetry.2.2 { envAll with spawnOk := fun _ => false }
      ⟨("/".toList), none, []⟩ [] ("nosuchprogram".toList)
      ("nosuchprogram".toList) none [] ("nosuchprogram".toList)
      .inherit .inherit (by decide) (by decide) rfl rfl rfl

/-- C10: the displayed current path is mutated only by the
change-directory builtin — a line none of whose segments has command
token `cd` leaves it unchanged — and the print-working-directory builtin
only prints that path, so two `pwd` runs with no intervening `cd` print
the same path. -/
theorem C10_path_frame :
    (∀ (env : Env) (line path : Str),
        (∀ cmd ∈ splitOnL pipeSep (trimL line),
            commandToken cmd ≠ some ("cd".toList)) →
        ((handelCommand env line path).2).path = path) ∧
    (∀ (env : Env) (rest : List Str) (st : ExecState),
        execSegs env (("pwd".toList) :: rest) st =
          execSegs env rest
            { st with events := st.events ++ [.printedPath st.path] }) := by
  exact ⟨fun env line path h => execSegs_path env _ _ h,
         fun env rest st => rfl⟩

theorem C10_w :
    ((handelCommand envAll (("ls | wc").toList) ("/".toList)).2).path =
      ("/".toList) ∧
    execSegs envAll [("pwd".toList)] ⟨("/".toList), none, []⟩ =
      execSegs envAll [] ⟨("/".toList), none, [.printedPath ("/".toList)]⟩ := by
  constructor
  · exact C10_path_frame.1 envAll _ _ (by decide)
  · simpa using C10_path_frame.2 envAll [] ⟨("/".toList), none, []⟩

end PotatoShell
